import Mathlib

/-!
# Verification of the `claude-code-rs` core against its specification

This file shallowly embeds the parts of the `claude-code-rs` repository that
the verified claims are about, and proves (or refutes) each claim.

Embedded components and their sources:
* the rule-based permission engine (`src/crates/core/src/permission.rs`
  together with the `Mergeable` instance in `src/crates/core/src/config.rs`);
* the SSE stream decoder's block accumulation
  (`StreamState` in `src/crates/core/src/api.rs`);
* the pre-flight tool-result truncation
  (`ApiClient::truncate_tool_results` in `src/crates/core/src/api.rs`);
* the agent loop (`Session::send_message` and
  `Session::execute_tool_calls` in `src/crates/core/src/session.rs`);
* hybrid search fusion and boosting (`rrf_merge` in
  `src/crates/search/src/hybrid.rs`, `apply_boost` in
  `src/crates/search/src/snippet.rs`, and `SearchIndex::search` in
  `src/crates/search/src/lib.rs`).

Modelling conventions:
* Rust `&str` / `String` values that are inspected character by character
  (commands, rules, patterns) are modelled as `List Char`.  The only
  byte-level operation the permission code performs is
  `value.as_bytes().get(prefix.len())` under a `value.starts_with(prefix)`
  guard; at a character boundary a byte equal to `0x20` is exactly the
  character `' '`, so the character-level model is faithful.
* Where UTF-8 byte counts matter (the 500 000-byte tool-result truncation)
  strings carry their UTF-8 byte structure through `utf8CharSize`.
* `f32` scores in the search engine are modelled as exact rationals (`ℚ`);
  every claim settled about them is robust to this choice (all comparisons
  involved are between values whose order agrees in `f32` and in `ℚ`).
* Rust `HashMap` iteration order is unspecified; the model iterates the RRF
  score map in insertion order.  Both claims about `rrf_merge` are proved or
  refuted on inputs whose scores are pairwise distinct, where the final
  sorted output does not depend on the iteration order.
-/

namespace ClaudeCodeRs

/-! ## Permission engine (`src/crates/core/src/permission.rs`) -/

/-- Rust strings inspected character by character are modelled as `List Char`. -/
abbrev Str := List Char

/-- A filesystem path, modelled as an absolute-flag plus its normal
components (mirrors `std::path::Path` component sequences; `/a/b` is
`⟨true, ["a","b"]⟩`, `a/b` is `⟨false, ["a","b"]⟩`). -/
structure PathM where
  absolute : Bool
  components : List Str
deriving DecidableEq, Repr

/-- A path component in the sense of `std::path::Components`: the root
directory or a normal component. -/
inductive PathComponent where
  | root : PathComponent
  | normal (s : Str) : PathComponent
deriving DecidableEq, Repr

/-- The component sequence of a path (`Path::components`). -/
def PathM.componentSeq (p : PathM) : List PathComponent :=
  (if p.absolute then [PathComponent.root] else []) ++ p.components.map PathComponent.normal

/-- Rust `Path::starts_with`: component-wise prefix test. -/
def PathM.startsWith (p base : PathM) : Bool :=
  decide (base.componentSeq <+: p.componentSeq)

/-- Rust `Path::join` for a relative right argument (the only case
`resolve_path` uses): append the components. -/
def PathM.join (base p : PathM) : PathM :=
  { absolute := base.absolute, components := base.components ++ p.components }

/-- The `Display` form of a path (`path.display().to_string()`), used as the
value that `Read`/`Write`/`Edit` rules pattern-match against. -/
def PathM.display (p : PathM) : Str :=
  (if p.absolute then ['/'] else []) ++ List.intercalate ['/'] p.components

/-- `Tool` from `permission.rs`: a tool invocation submitted to the
permission check. -/
inductive Tool where
  | bash (command : Str)
  | read (path : PathM)
  | write (path : PathM)
  | edit (path : PathM)
  | git
  | glob
  | grep
  | search
deriving DecidableEq, Repr

/-- `pattern_matches` from `permission.rs`: `*` matches everything;
`pfx:*` matches `pfx` itself or `pfx` followed by a space; anything else is
an exact match.  (`value.as_bytes().get(prefix.len()).is_some_and(|&b| b == b' ')`
under the `starts_with` guard is the character-level test
`value[prefix.length]? == some ' '`.) -/
def pattern_matches (value pattern : Str) : Bool :=
  if pattern = ['*'] then
    true
  else
    match stripColonStar pattern with
    | some pfx =>
        value = pfx ∨ (pfx.isPrefixOf value ∧ value[pfx.length]? = some ' ')
    | none => value = pattern
where
  /-- `pattern.strip_suffix(":*")`. -/
  stripColonStar (pattern : Str) : Option Str :=
    if [':', '*'] <:+ pattern then some (pattern.take (pattern.length - 2)) else none

/-- `parse_rule` from `permission.rs`: split `ToolName(pattern)` at the first
`'('` and the last `')'`; fail when the `')'` does not come strictly after
the `'('`. -/
def parse_rule (rule : Str) : Option (Str × Str) := do
  let openIdx ← rule.findIdx? (· = '(')
  let closeIdx ← rfindIdx rule ')'
  if closeIdx ≤ openIdx then
    none
  else
    some (rule.take openIdx, (rule.take closeIdx).drop (openIdx + 1))
where
  /-- `str::rfind` for a single character: index of the last occurrence. -/
  rfindIdx (xs : Str) (c : Char) : Option Nat :=
    match xs.reverse.findIdx? (· = c) with
    | none => none
    | some i => some (xs.length - 1 - i)

/-- `rule_matches` from `permission.rs`: parse the rule; a rule that fails to
parse matches nothing; otherwise the tool name must agree with the
invocation's class and the pattern must match its value. -/
def rule_matches (rule : Str) (tool : Tool) : Bool :=
  match parse_rule rule with
  | none => false
  | some (tname, pattern) =>
    match tool with
    | Tool.bash command => tname = "Bash".toList ∧ pattern_matches command pattern
    | Tool.read path => tname = "Read".toList ∧ pattern_matches path.display pattern
    | Tool.write path => tname = "Write".toList ∧ pattern_matches path.display pattern
    | Tool.edit path => tname = "Edit".toList ∧ pattern_matches path.display pattern
    | _ => false

/-- `PermissionConfig` from `permission.rs`. -/
structure PermissionConfig where
  allow : List Str
  deny : List Str
  additional_directories : List PathM
deriving DecidableEq, Repr

/-- `resolve_path` from `permission.rs`: absolute paths stand; relative
paths are joined onto the project directory. -/
def resolve_path (path project_dir : PathM) : PathM :=
  if path.absolute then path else project_dir.join path

/-- `PermissionConfig::check` from `permission.rs`: deny rules first, then
allow rules, then the read-only tool classes, then project-directory and
additional-directory containment for file tools; otherwise undecided. -/
def PermissionConfig.check (c : PermissionConfig) (tool : Tool) (project_dir : PathM) :
    Option Bool :=
  if c.deny.any (fun r => rule_matches r tool) then
    some false
  else if c.allow.any (fun r => rule_matches r tool) then
    some true
  else if isReadOnly tool then
    some true
  else
    match tool with
    | Tool.read path | Tool.write path | Tool.edit path =>
      let resolved := resolve_path path project_dir
      if resolved.startsWith project_dir then
        some true
      else if c.additional_directories.any (fun dir => resolved.startsWith dir) then
        some true
      else
        none
    | _ => none
where
  /-- The `Tool::Git | Tool::Glob | Tool::Grep | Tool::Search` match arm. -/
  isReadOnly : Tool → Bool
    | Tool.git | Tool.glob | Tool.grep | Tool.search => true
    | _ => false

/-- `Mergeable::merge` for `PermissionConfig` from `config.rs`: concatenate
each field, base first. -/
def PermissionConfig.merge (c other : PermissionConfig) : PermissionConfig :=
  { allow := c.allow ++ other.allow
    deny := c.deny ++ other.deny
    additional_directories := c.additional_directories ++ other.additional_directories }

/-- Spec-side restatement of the permission algorithm, written from the words
of claim C3 (evaluated in order, first decision wins): any matching deny rule
returns `some false`; else any matching allow rule returns `some true`; else
`Git`, `Glob`, `Grep`, `Search` return `some true`; else a `Read`, `Write` or
`Edit` invocation whose path, resolved against the project directory, has the
project directory or one of `additional_directories` as a prefix returns
`some true`; otherwise `none`. -/
def checkSpec (c : PermissionConfig) (tool : Tool) (project_dir : PathM) : Option Bool :=
  if ∃ r ∈ c.deny, rule_matches r tool = true then
    some false
  else if ∃ r ∈ c.allow, rule_matches r tool = true then
    some true
  else
    match tool with
    | Tool.git | Tool.glob | Tool.grep | Tool.search => some true
    | Tool.read path | Tool.write path | Tool.edit path =>
        if (resolve_path path project_dir).startsWith project_dir = true
            ∨ ∃ dir ∈ c.additional_directories,
                (resolve_path path project_dir).startsWith dir = true then
          some true
        else
          none
    | Tool.bash _ => none

/-! ## Content model (`src/crates/core/src/api.rs`) -/

/-- A JSON value (`serde_json::Value`). -/
inductive Json where
  | null
  | bool (b : Bool)
  | num (n : Int)
  | str (s : String)
  | arr (items : List Json)
  | obj (fields : List (String × Json))

/-- `ContentBlock` from `api.rs`. -/
inductive ContentBlock where
  | text (text : String)
  | toolUse (id : String) (name : String) (input : Json)
  | toolResult (tool_use_id : String) (content : String) (is_error : Option Bool)

/-- `Content` from `api.rs`: plain text or a block list. -/
inductive Content where
  | text (s : String)
  | blocks (bs : List ContentBlock)

/-- `Message` from `api.rs`. -/
structure Message where
  role : String
  content : Content

/-- `Usage` from `api.rs` (token counters; the values play no role in the
claims settled here). -/
structure Usage where
  input_tokens : Nat
  output_tokens : Nat
deriving DecidableEq, Repr

/-- `StopReason` from `api.rs`. -/
inductive StopReason where
  | endTurn
  | toolUse
  | maxTokens
deriving DecidableEq, Repr

/-- `StreamResult` from `api.rs`. -/
structure StreamResult where
  content : List ContentBlock
  usage : Usage
  stop_reason : StopReason

/-! ## Stream decoder (`StreamState` in `src/crates/core/src/api.rs`)

The SSE events arrive as JSON payloads; the model carries the fields the
decoder extracts from them.  The decoder's callbacks into the event handler
(`on_text`) are side effects that do not touch the decoder state and are not
modelled.  JSON parsing (`serde_json::from_str`) is external library code;
the decoder model is parameterized by an arbitrary parse function, which the
claim is independent of. -/

/-- `BlockKind` from `api.rs`: the block currently being built, with the
accumulated text or the accumulated partial JSON. -/
inductive BlockKind where
  | text (text : String)
  | toolUse (id : String) (name : String) (json : String)
deriving DecidableEq, Repr

/-- `StreamState` from `api.rs` (block accumulation part; the usage and
stop-reason counters are updated by disjoint events and are carried along
unchanged by the block events modelled here). -/
structure StreamState where
  blocks : List ContentBlock
  current : Option BlockKind
  usage : Usage
  stop_reason : StopReason

/-- The block-level SSE events, with the fields the decoder extracts:
`content_block_start` for a text, `tool_use` or unrecognized block,
`content_block_delta` with a `text_delta`, `input_json_delta` or other
delta type, and `content_block_stop`. -/
inductive StreamEvent where
  | blockStartText
  | blockStartToolUse (id : String) (name : String)
  | blockStartOther
  | textDelta (chunk : String)
  | inputJsonDelta (chunk : String)
  | otherDelta
  | blockStop
deriving DecidableEq, Repr

/-- `StreamState::start_block`: open a new current block according to the
started block's type (any unrecognized type clears the current block). -/
def StreamState.start_block (st : StreamState) (e : StreamEvent) : StreamState :=
  match e with
  | StreamEvent.blockStartText => { st with current := some (BlockKind.text "") }
  | StreamEvent.blockStartToolUse id name =>
      { st with current := some (BlockKind.toolUse id name "") }
  | _ => { st with current := none }

/-- `StreamState::apply_delta`: a `text_delta` appends to a current text
block; an `input_json_delta` appends `partial_json` to a current tool-use
block's JSON accumulator; every other combination is ignored. -/
def StreamState.apply_delta (st : StreamState) (e : StreamEvent) : StreamState :=
  match st.current, e with
  | some (BlockKind.text t), StreamEvent.textDelta chunk =>
      { st with current := some (BlockKind.text (t ++ chunk)) }
  | some (BlockKind.toolUse id name json), StreamEvent.inputJsonDelta chunk =>
      { st with current := some (BlockKind.toolUse id name (json ++ chunk)) }
  | _, _ => st

/-- `StreamState::finish_block`: push the finished current block; a tool-use
block's accumulated JSON is parsed, substituting the empty object on parse
failure (`serde_json::from_str(&json).unwrap_or(Object(Map::new()))`). -/
def StreamState.finish_block (st : StreamState) (parse : String → Option Json) : StreamState :=
  match st.current with
  | none => st
  | some (BlockKind.text t) =>
      { st with blocks := st.blocks ++ [ContentBlock.text t], current := none }
  | some (BlockKind.toolUse id name json) =>
      { st with
        blocks := st.blocks ++
          [ContentBlock.toolUse id name ((parse json).getD (Json.obj []))]
        current := none }

/-- Dispatch one block-level SSE event, as `handle_sse_event` does for
`content_block_start` / `content_block_delta` / `content_block_stop`. -/
def processEvent (parse : String → Option Json) (st : StreamState) (e : StreamEvent) :
    StreamState :=
  match e with
  | StreamEvent.blockStartText | StreamEvent.blockStartToolUse _ _
  | StreamEvent.blockStartOther => st.start_block e
  | StreamEvent.textDelta _ | StreamEvent.inputJsonDelta _
  | StreamEvent.otherDelta => st.apply_delta e
  | StreamEvent.blockStop => st.finish_block parse

/-- Process a sequence of block-level SSE events in arrival order. -/
def processEvents (parse : String → Option Json) (st : StreamState)
    (events : List StreamEvent) : StreamState :=
  events.foldl (processEvent parse) st

/-! ## Tool-result truncation (`ApiClient::truncate_tool_results` in `api.rs`)

Rust `String::len` and string slicing are byte-based over UTF-8.  The model
carries the byte structure through `utf8CharSize`; slicing at a byte index
that is not a character boundary panics in Rust, which the model renders as
`none`. -/

/-- UTF-8 byte width of a character (Rust `char::len_utf8`). -/
def utf8CharSize (c : Char) : Nat :=
  if c.val < 0x80 then 1 else if c.val < 0x800 then 2 else if c.val < 0x10000 then 3 else 4

/-- Rust `str::len`: the UTF-8 byte length. -/
def utf8Len (s : String) : Nat := (s.toList.map utf8CharSize).sum

/-- `MAX_TOOL_RESULT_SIZE` from `api.rs`: 500 KB per tool result. -/
def MAX_TOOL_RESULT_SIZE : Nat := 500000

/-- Rust byte slicing `&s[..n]` on a UTF-8 string: the character prefix of
byte length exactly `n` when `n` is a character boundary, `none` (a Rust
panic) when `n` falls inside a character or past the end. -/
def takeBytes : List Char → Nat → Option (List Char)
  | _, 0 => some []
  | [], _ + 1 => none
  | c :: cs, n + 1 =>
    if utf8CharSize c ≤ n + 1 then
      (takeBytes cs (n + 1 - utf8CharSize c)).map (fun t => c :: t)
    else
      none

/-- The per-block body of `truncate_tool_results`: a `ToolResult` whose
content exceeds `MAX_TOOL_RESULT_SIZE` bytes is replaced by its first
`MAX_TOOL_RESULT_SIZE` bytes (`&content[..MAX_TOOL_RESULT_SIZE]`, which
panics — `none` — off a character boundary) followed by the marker
`... [truncated N bytes]`; other blocks are cloned unchanged. -/
def truncateBlock (b : ContentBlock) : Option ContentBlock :=
  match b with
  | ContentBlock.toolResult tool_use_id content is_error =>
    if utf8Len content > MAX_TOOL_RESULT_SIZE then
      match takeBytes content.toList MAX_TOOL_RESULT_SIZE with
      | none => none
      | some pfxChars =>
          some (ContentBlock.toolResult tool_use_id
            (String.mk pfxChars ++ "... [truncated " ++
              toString (utf8Len content - MAX_TOOL_RESULT_SIZE) ++ " bytes]")
            is_error)
    else
      some b
  | _ => some b

/-- Truncate each block of a block list in order; a panic (`none`) in any
block propagates. -/
def truncateBlocks : List ContentBlock → Option (List ContentBlock)
  | [] => some []
  | b :: bs =>
    (truncateBlock b).bind fun b2 => (truncateBlocks bs).map fun rest => b2 :: rest

/-- The per-message body of `truncate_tool_results`: block contents are
truncated block-wise, text contents are cloned unchanged. -/
def truncateContent (ct : Content) : Option Content :=
  match ct with
  | Content.blocks bs => (truncateBlocks bs).map Content.blocks
  | _ => some ct

/-- `ApiClient::truncate_tool_results` from `api.rs`, with `none` modelling
the slice panic. -/
def truncate_tool_results : List Message → Option (List Message)
  | [] => some []
  | msg :: rest =>
    (truncateContent msg.content).bind fun ct =>
      (truncate_tool_results rest).map fun rest2 => Message.mk msg.role ct :: rest2

/-- A tool-result content on which the byte slice in
`truncate_tool_results` panics: 499 999 one-byte characters followed by a
two-byte character straddling the 500 000-byte boundary. -/
def c6FailingContent : String := String.mk (List.replicate 499999 'a' ++ ['é', 'x'])

/-! ## Agent loop (`Session::send_message` in `src/crates/core/src/session.rs`)

The loop interacts with its environment through the cancel token and the
streaming API call; the model feeds both in as a script indexed by the
iteration number: the token state observed by the top-of-loop check, and the
result the `stream_message` call of that iteration would produce.  Tool
execution is abstracted as a function from the assistant content to the
resulting tool-result blocks (`execute_tool_calls` is modelled concretely in
its own section below).  The source loop has no built-in iteration bound, so
the model is fuel-indexed and returns `none` when the fuel runs out. -/

/-- The environment of one loop iteration: whether `cancel.is_cancelled()`
observes a signaled token at the top of the iteration, and the outcome of
that iteration's `stream_message` call. -/
structure IterStep where
  cancelled : Bool
  stream : Except String StreamResult

/-- The outcome of `send_message`: `Ok(total_usage)` or an error, together
with the conversation left in `self.messages`. -/
inductive SendResult where
  | ok (usage : Usage) (messages : List Message)
  | err (e : String) (messages : List Message)

/-- Accumulate usage counters (`total_usage.* += stream_result.usage.*`). -/
def addUsage (t u : Usage) : Usage :=
  { input_tokens := t.input_tokens + u.input_tokens
    output_tokens := t.output_tokens + u.output_tokens }

/-- The `loop` of `send_message`: check the cancel token and break; call the
API and on error truncate to the rollback point and return the error;
accumulate usage; push the assistant message; stop unless the stop reason is
`ToolUse`; execute tools; stop when no results; push the tool results as a
user message and iterate. -/
def sendLoop (execTools : List ContentBlock → List ContentBlock) (script : Nat → IterStep) :
    Nat → Nat → List Message → Nat → Usage → Option SendResult
  | 0, _, _, _, _ => none
  | fuel + 1, i, msgs, rollback_len, total =>
    if (script i).cancelled then
      some (SendResult.ok total msgs)
    else
      match (script i).stream with
      | Except.error e => some (SendResult.err e (msgs.take rollback_len))
      | Except.ok sr =>
        let total2 := addUsage total sr.usage
        let msgs2 := msgs ++ [Message.mk "assistant" (Content.blocks sr.content)]
        if sr.stop_reason ≠ StopReason.toolUse then
          some (SendResult.ok total2 msgs2)
        else
          let tool_results := execTools sr.content
          if tool_results.isEmpty then
            some (SendResult.ok total2 msgs2)
          else
            sendLoop execTools script fuel (i + 1)
              (msgs2 ++ [Message.mk "user" (Content.blocks tool_results)]) rollback_len total2

/-- `Session::send_message`: record the rollback point (the message count
before the turn), push the user message, and run the loop with zeroed usage
totals. -/
def send_message (execTools : List ContentBlock → List ContentBlock)
    (script : Nat → IterStep) (fuel : Nat) (messages : List Message) (input : String) :
    Option SendResult :=
  sendLoop execTools script fuel 0
    (messages ++ [Message.mk "user" (Content.text input)]) messages.length (Usage.mk 0 0)

/-! ## Tool-call execution (`Session::execute_tool_calls` in `session.rs`)

The permission check composes `tools::to_permission_tool` with the stateful
`PermissionHandler::allow` (`&mut self.permissions`); the model abstracts the
composite as a state-threading function returning the decision (with the
`to_permission_tool = None` case folded into a `false` decision, as in the
source).  The registry is a name-to-tool map; a tool's `execute_dyn` closure
(with the session's fixed working directory folded in) is modelled as a
function from the input JSON to the tool output.  `join_all` awaits all
executions and returns their outputs in the order of the prepared calls. -/

/-- `ToolOutput` from `tools/mod.rs`. -/
structure ToolOutput where
  content : String
  is_error : Bool

/-- `PreparedCall` from `execute_tool_calls`: a call that passed its
permission check and resolved in the registry. -/
structure PreparedCall where
  id : String
  name : String
  input : Json
  exec : Json → ToolOutput

/-- Phase 1 of `execute_tool_calls` (sequential): walk the assistant blocks
in order, skip non-ToolUse blocks, run the permission check (threading the
handler state), emit an immediate error ToolResult for denied calls and for
allowed calls naming an unknown tool, and collect the remaining calls as
prepared. -/
def phase1 {σ : Type} (allow : σ → String → Json → Bool × σ)
    (registry : String → Option (Json → ToolOutput)) :
    List ContentBlock → σ → List ContentBlock × List PreparedCall × σ
  | [], s => ([], [], s)
  | ContentBlock.toolUse id name input :: rest, s =>
    let res := allow s name input
    if res.1 then
      match registry name with
      | some ex =>
        let p := phase1 allow registry rest res.2
        (p.1, PreparedCall.mk id name input ex :: p.2.1, p.2.2)
      | none =>
        let p := phase1 allow registry rest res.2
        (ContentBlock.toolResult id ("Unknown tool: " ++ name) (some true) :: p.1,
          p.2.1, p.2.2)
    else
      let p := phase1 allow registry rest res.2
      (ContentBlock.toolResult id "Permission denied by user." (some true) :: p.1,
        p.2.1, p.2.2)
  | _ :: rest, s => phase1 allow registry rest s

/-- `Session::execute_tool_calls`: phase 1 classifies the calls; phase 2
executes the prepared calls (`join_all` keeps their order); phase 3 appends
one ToolResult per prepared call after the immediate results. -/
def execute_tool_calls {σ : Type} (allow : σ → String → Json → Bool × σ)
    (registry : String → Option (Json → ToolOutput))
    (content : List ContentBlock) (s : σ) : List ContentBlock × σ :=
  let p := phase1 allow registry content s
  let outputs := p.2.1.map fun call => call.exec call.input
  (p.1 ++ (p.2.1.zip outputs).map fun co =>
      ContentBlock.toolResult co.1.id co.2.content (if co.2.is_error then some true else none),
    p.2.2)

/-- The ids of the ToolUse blocks of an assistant content list, in order. -/
def toolUseIds (content : List ContentBlock) : List String :=
  content.filterMap fun b =>
    match b with
    | ContentBlock.toolUse id _ _ => some id
    | _ => none

/-- The `tool_use_id`s of the ToolResult blocks of a list, in order. -/
def resultIds (blocks : List ContentBlock) : List String :=
  blocks.filterMap fun b =>
    match b with
    | ContentBlock.toolResult id _ _ => some id
    | _ => none

/-! ## Hybrid search (`src/crates/search/src/hybrid.rs`, `snippet.rs`, `lib.rs`)

`f32` scores are modelled as exact rationals.  The `HashMap<&str, f32>` in
`rrf_merge` is modelled as an association list iterated in insertion order;
the Rust iteration order is unspecified, and the claims settled below are
established on inputs with pairwise distinct scores, where the sorted output
is independent of the iteration order. -/

/-- The RRF constant `K = 60.0` from `hybrid.rs`. -/
def rrfConstK : ℚ := 60

/-- `*scores.entry(path).or_default() += inc`: bump the score of `path` in
the association-list score map, inserting it at the end when absent. -/
def addScore : List (String × ℚ) → String → ℚ → List (String × ℚ)
  | [], path, inc => [(path, inc)]
  | (q, s) :: rest, path, inc =>
    if q = path then (q, s + inc) :: rest else (q, s) :: addScore rest path inc

/-- The `for (rank, (path, _)) in list.iter().enumerate()` loop of
`rrf_merge`: fold a ranked list into the score map, contributing
`1 / (K + rank + 1)` per entry. -/
def accumRanks : List (String × ℚ) → Nat → List (String × ℚ) → List (String × ℚ)
  | [], _, m => m
  | (path, _) :: rest, rank, m =>
    accumRanks rest (rank + 1) (addScore m path (1 / (rrfConstK + (rank : ℚ) + 1)))

/-- The descending-score ordering used by
`sort_by(|a, b| b.1.partial_cmp(&a.1))`. -/
def scoreGE (a b : String × ℚ) : Prop := b.2 ≤ a.2

instance : DecidableRel scoreGE := fun a b => inferInstanceAs (Decidable (b.2 ≤ a.2))

instance : IsTotal (String × ℚ) scoreGE := ⟨fun a b => le_total b.2 a.2⟩

instance : IsTrans (String × ℚ) scoreGE := ⟨fun _ _ _ h₁ h₂ => le_trans h₂ h₁⟩

/-- Rust's stable `sort_by` under the descending-score comparator, modelled
as a stable insertion sort (stable sorts agree on their output). -/
def sortByScoreDesc (l : List (String × ℚ)) : List (String × ℚ) :=
  List.insertionSort scoreGE l

/-- `rrf_merge` from `hybrid.rs`: score both ranked lists into one map,
sort by combined score descending, truncate to `limit`. -/
def rrf_merge (bm25 semantic : List (String × ℚ)) (limit : Nat) : List (String × ℚ) :=
  let scores := accumRanks semantic 0 (accumRanks bm25 0 [])
  (sortByScoreDesc scores).take limit

/-- Spec-side helper for claim C9: the items of a ranked list in their
original order, each scored `1 / (60 + rank + 1)` for its 0-based rank. -/
def rankListQ : List (String × ℚ) → Nat → List (String × ℚ)
  | [], _ => []
  | (path, _) :: rest, rank => (path, 1 / (60 + (rank : ℚ) + 1)) :: rankListQ rest (rank + 1)

/-- Rust `str::contains` on the lowercased path, modelled on characters. -/
def containsSub (s pat : String) : Bool := decide (pat.toList <:+: s.toList)

/-- Rust `str::ends_with`, modelled on characters. -/
def endsWithStr (s pat : String) : Bool := decide (pat.toList <:+ s.toList)

/-- Rust `str::to_lowercase`, modelled as a character map (coincides with
the Unicode lowering on the ASCII paths involved). -/
def toLowerStr (s : String) : String := String.mk (s.toList.map Char.toLower)

/-- `apply_boost` from `snippet.rs`: multiplicative path-category boost,
first matching category wins (`0.5`, `0.4`, `0.6`, `1.1` as exact
rationals). -/
def apply_boost (path : String) (score : ℚ) : ℚ :=
  let p := toLowerStr path
  if containsSub p "/test" || containsSub p "_test." ||
      containsSub p ".test." || containsSub p ".spec." then
    score * (1 / 2)
  else if containsSub p "/mock" || containsSub p ".mock." then
    score * (2 / 5)
  else if endsWithStr p ".md" || containsSub p "/docs/" then
    score * (3 / 5)
  else if containsSub p "/src" || containsSub p "/lib" then
    score * (11 / 10)
  else
    score

/-- The ranking part of `SearchIndex::search` from `lib.rs`: fetch
`2 * limit` results from each retriever (modelled as taking a prefix of a
full ranking), RRF-merge them with output truncated to `limit`, apply the
path boost to the merged hits, and re-sort by boosted score.  Snippet
extraction (`context_lines`) reads the filesystem and does not affect the
returned paths or scores, so it is not modelled. -/
def searchHits (bm25Rank semRank : List (String × ℚ)) (limit : Nat) : List (String × ℚ) :=
  let fetch_limit := limit * 2
  let bm25_results := bm25Rank.take fetch_limit
  let semantic_results := semRank.take fetch_limit
  let merged := rrf_merge bm25_results semantic_results limit
  let hits := merged.map (fun h => (h.1, apply_boost h.1 h.2))
  sortByScoreDesc hits

/-! ## Theorems

Shared helper lemmas come first; each claim's theorem (and its witness or
counterexample) follows, one theorem per claim. -/

/-! ### Helper lemmas for the permission engine -/

/-- Stripping `":*"` from `p ++ ":*"` recovers `p`. -/
theorem stripColonStar_append (p : Str) :
    pattern_matches.stripColonStar (p ++ [':', '*']) = some p := by
  unfold pattern_matches.stripColonStar
  rw [if_pos (List.suffix_append p [':', '*'])]
  simp

/-- A successful `findIdx?` returns an in-range index whose element
satisfies the predicate. -/
theorem findIdx?_found {α : Type} {p : α → Bool} :
    ∀ {xs : List α} {i : Nat}, xs.findIdx? p = some i →
      ∃ a, xs[i]? = some a ∧ p a = true := by
  intro xs
  induction xs with
  | nil => intro i h; simp [List.findIdx?] at h
  | cons x xs ih =>
    intro i h
    rw [List.findIdx?_cons] at h
    by_cases hx : p x
    · simp [hx] at h
      subst h
      exact ⟨x, by simp, hx⟩
    · simp [hx] at h
      obtain ⟨j, hj, rfl⟩ := h
      obtain ⟨a, ha, hpa⟩ := ih hj
      exact ⟨a, by simpa using ha, hpa⟩

/-- A successful `rfindIdx` returns an in-range index holding the sought
character. -/
theorem rfindIdx_found {xs : Str} {c : Char} {i : Nat}
    (h : parse_rule.rfindIdx xs c = some i) : xs[i]? = some c := by
  unfold parse_rule.rfindIdx at h
  rcases hr : xs.reverse.findIdx? (· = c) with _ | j
  · rw [hr] at h; exact absurd h (by simp)
  · rw [hr] at h
    obtain ⟨a, ha, hpa⟩ := findIdx?_found hr
    have hj : j < xs.reverse.length := by
      by_contra hge
      rw [List.getElem?_eq_none (by omega)] at ha
      exact absurd ha (by simp)
    have hrev : xs.reverse[j]? = xs[xs.length - 1 - j]? :=
      List.getElem?_reverse (by simpa using hj)
    simp only [Option.some.injEq] at h
    subst h
    rw [← hrev, ha]
    have : a = c := by simpa using hpa
    rw [this]

/-- C8: for every prefix string `p` and value string `v`, the pattern
`p ++ ":*"` matches `v` exactly when `v` equals `p` or `v` starts with `p`
immediately followed by a space character. -/
theorem c8_colon_star_pattern (p v : Str) :
    pattern_matches v (p ++ [':', '*']) = true ↔
      (v = p ∨ ∃ rest, v = p ++ ' ' :: rest) := by
  have hne : ¬ (p ++ [':', '*'] = ['*']) := by
    intro h
    have := congrArg List.length h
    simp at this
  unfold pattern_matches
  rw [if_neg hne, stripColonStar_append]
  simp only [decide_eq_true_eq]
  constructor
  · rintro (rfl | ⟨hpre, hget⟩)
    · exact Or.inl rfl
    · right
      obtain ⟨t, ht⟩ := List.isPrefixOf_iff_prefix.mp hpre
      subst ht
      rw [List.getElem?_append_right (Nat.le_refl p.length)] at hget
      simp only [Nat.sub_self] at hget
      cases t with
      | nil => exact absurd hget (by simp)
      | cons c t =>
        have hc : c = ' ' := by simpa using hget
        subst hc
        exact ⟨t, rfl⟩
  · rintro (rfl | ⟨rest, rfl⟩)
    · exact Or.inl rfl
    · right
      refine ⟨List.isPrefixOf_iff_prefix.mpr ⟨' ' :: rest, rfl⟩, ?_⟩
      rw [List.getElem?_append_right (Nat.le_refl p.length)]
      simp

/-- C8 witness: the pattern `psql:*` matches the bare command `psql` and the
extended command `psql -U admin`, and rejects `psql2`. -/
theorem c8_colon_star_pattern_witness :
    pattern_matches "psql".toList ("psql".toList ++ [':', '*']) = true ∧
      pattern_matches "psql -U admin".toList ("psql".toList ++ [':', '*']) = true ∧
      ¬ pattern_matches "psql2".toList ("psql".toList ++ [':', '*']) = true :=
  ⟨(c8_colon_star_pattern "psql".toList "psql".toList).mpr (Or.inl (by decide)),
   (c8_colon_star_pattern "psql".toList "psql -U admin".toList).mpr
     (Or.inr ⟨"-U admin".toList, by decide⟩),
   fun h => by
     rcases (c8_colon_star_pattern "psql".toList "psql2".toList).mp h with h | ⟨rest, hrest⟩
     · exact absurd h (by decide)
     · have := congrArg (fun l => l[4]?) hrest
       simp at this⟩

/-- C3: `PermissionConfig::check` implements exactly the first-decision-wins
cascade of the claim (deny, then allow, then read-only classes, then
directory containment for file tools, else undecided), and on a merged
configuration a matching deny rule from either layer forces `some false`
regardless of any allow rules — deny beats allow across layers. -/
theorem c3_check_cascade (c : PermissionConfig) (tool : Tool) (project_dir : PathM) :
    c.check tool project_dir = checkSpec c tool project_dir ∧
      ∀ c₂ : PermissionConfig,
        (∃ r ∈ c.deny ++ c₂.deny, rule_matches r tool = true) →
          (c.merge c₂).check tool project_dir = some false := by
  constructor
  · unfold PermissionConfig.check checkSpec
    by_cases hd : ∃ r ∈ c.deny, rule_matches r tool = true
    · rw [if_pos (List.any_eq_true.mpr hd), if_pos hd]
    · rw [if_neg (fun h => hd (List.any_eq_true.mp h)), if_neg hd]
      by_cases ha : ∃ r ∈ c.allow, rule_matches r tool = true
      · rw [if_pos (List.any_eq_true.mpr ha), if_pos ha]
      · rw [if_neg (fun h => ha (List.any_eq_true.mp h)), if_neg ha]
        cases tool with
        | git => rfl
        | glob => rfl
        | grep => rfl
        | search => rfl
        | bash command => rfl
        | read path =>
          simp only [PermissionConfig.check.isReadOnly]
          by_cases hp : (resolve_path path project_dir).startsWith project_dir = true
          · simp [hp]
          · by_cases hadd : ∃ dir ∈ c.additional_directories,
                (resolve_path path project_dir).startsWith dir = true
            · simp [hp, List.any_eq_true.mpr hadd, hadd]
            · simp [hp, hadd, fun h => hadd (List.any_eq_true.mp h)]
        | write path =>
          simp only [PermissionConfig.check.isReadOnly]
          by_cases hp : (resolve_path path project_dir).startsWith project_dir = true
          · simp [hp]
          · by_cases hadd : ∃ dir ∈ c.additional_directories,
                (resolve_path path project_dir).startsWith dir = true
            · simp [hp, List.any_eq_true.mpr hadd, hadd]
            · simp [hp, hadd, fun h => hadd (List.any_eq_true.mp h)]
        | edit path =>
          simp only [PermissionConfig.check.isReadOnly]
          by_cases hp : (resolve_path path project_dir).startsWith project_dir = true
          · simp [hp]
          · by_cases hadd : ∃ dir ∈ c.additional_directories,
                (resolve_path path project_dir).startsWith dir = true
            · simp [hp, List.any_eq_true.mpr hadd, hadd]
            · simp [hp, hadd, fun h => hadd (List.any_eq_true.mp h)]
  · intro c₂ hdeny
    unfold PermissionConfig.check
    rw [show (c.merge c₂).deny = c.deny ++ c₂.deny from rfl]
    rw [if_pos (List.any_eq_true.mpr hdeny)]

/-- C3 witness: with `Bash(*)` allowed in the base layer and `Bash(rm:*)`
denied in the overlay layer, the merged configuration denies `rm -rf /`, and
on that configuration `check` agrees with the claimed cascade. -/
theorem c3_check_cascade_witness :
    (PermissionConfig.mk ["Bash(*)".toList] [] []).check
        (Tool.bash "rm -rf /".toList) (PathM.mk true ["project".toList]) =
      checkSpec (PermissionConfig.mk ["Bash(*)".toList] [] [])
        (Tool.bash "rm -rf /".toList) (PathM.mk true ["project".toList]) ∧
    ((PermissionConfig.mk ["Bash(*)".toList] [] []).merge
        (PermissionConfig.mk [] ["Bash(rm:*)".toList] [])).check
        (Tool.bash "rm -rf /".toList) (PathM.mk true ["project".toList]) = some false := by
  have h := c3_check_cascade (PermissionConfig.mk ["Bash(*)".toList] [] [])
    (Tool.bash "rm -rf /".toList) (PathM.mk true ["project".toList])
  exact ⟨h.1, h.2 (PermissionConfig.mk [] ["Bash(rm:*)".toList] []) (by decide)⟩

/-- C10: a rule string in which no `'('` is followed later by a `')'` cannot
be split by `parse_rule`, and such a rule matches no tool invocation at all —
a malformed allow or deny entry is inert. -/
theorem c10_malformed_rule_inert (rule : Str)
    (h : ¬ ∃ i, i < rule.length ∧ ∃ j, j < rule.length ∧ i < j ∧
          rule[i]? = some '(' ∧ rule[j]? = some ')') :
    parse_rule rule = none ∧ ∀ tool, rule_matches rule tool = false := by
  have hnone : parse_rule rule = none := by
    unfold parse_rule
    rcases ho : rule.findIdx? (· = '(') with _ | openIdx
    · rfl
    · rcases hc : parse_rule.rfindIdx rule ')' with _ | closeIdx
      · rfl
      · by_cases hle : closeIdx ≤ openIdx
        · simp [hle]
        · exfalso
          apply h
          obtain ⟨a, ha, hpa⟩ := findIdx?_found ho
          have h1 : rule[openIdx]? = some '(' := by
            rw [ha]
            have : a = '(' := by simpa using hpa
            rw [this]
          have h2 : rule[closeIdx]? = some ')' := rfindIdx_found hc
          have hilen : openIdx < rule.length := by
            by_contra hge
            rw [List.getElem?_eq_none (by omega)] at h1
            exact absurd h1 (by simp)
          have hjlen : closeIdx < rule.length := by
            by_contra hge
            rw [List.getElem?_eq_none (by omega)] at h2
            exact absurd h2 (by simp)
          exact ⟨openIdx, hilen, closeIdx, hjlen, by omega, h1, h2⟩
  refine ⟨hnone, fun tool => ?_⟩
  unfold rule_matches
  rw [hnone]

/-- C10 witness: the malformed rule `invalid` fails to parse and matches
neither a Bash invocation nor the Git tool. -/
theorem c10_malformed_rule_inert_witness :
    parse_rule "invalid".toList = none ∧
      rule_matches "invalid".toList (Tool.bash "rm -rf /".toList) = false ∧
      rule_matches "invalid".toList Tool.git = false := by
  have h := c10_malformed_rule_inert "invalid".toList (by decide)
  exact ⟨h.1, h.2 (Tool.bash "rm -rf /".toList), h.2 Tool.git⟩

/-! ### Helper lemmas for the hybrid search engine -/

/-- Bumping a path that is absent from the score map appends it. -/
theorem addScore_notMem {m : List (String × ℚ)} {p : String}
    (h : p ∉ m.map Prod.fst) (inc : ℚ) :
    addScore m p inc = m ++ [(p, inc)] := by
  induction m with
  | nil => rfl
  | cons hd tl ih =>
    obtain ⟨q, s⟩ := hd
    simp only [List.map_cons, List.mem_cons] at h
    push_neg at h
    simp only [addScore]
    rw [if_neg (fun hqp => h.1 hqp.symm), ih h.2]
    simp

/-- Folding a ranked list with pairwise distinct paths, all absent from the
score map, appends one entry per item scored by its rank. -/
theorem accumRanks_disjoint (L : List (String × ℚ)) :
    ∀ (r : Nat) (m : List (String × ℚ)),
      (L.map Prod.fst).Nodup →
      (∀ q ∈ L.map Prod.fst, q ∉ m.map Prod.fst) →
      accumRanks L r m = m ++ rankListQ L r := by
  induction L with
  | nil => intro r m _ _; simp [accumRanks, rankListQ]
  | cons hd tl ih =>
    intro r m hnodup hdisj
    obtain ⟨p, s⟩ := hd
    simp only [List.map_cons, List.nodup_cons] at hnodup
    simp only [accumRanks]
    rw [addScore_notMem (hdisj p (by simp)) _]
    rw [ih (r + 1) _ hnodup.2 ?_]
    · simp [rankListQ, rrfConstK, List.append_assoc]
    · intro q hq
      simp only [List.map_append, List.mem_append]
      push_neg
      refine ⟨hdisj q (by simp [hq]), ?_⟩
      simp only [List.map_cons]
      intro hmem
      have : q = p := by simpa using hmem
      exact hnodup.1 (this ▸ hq)

/-- Every score in `rankListQ L r` is the reciprocal of `61` plus a rank at
least `r`. -/
theorem rankListQ_mem {L : List (String × ℚ)} :
    ∀ {r : Nat} {q : String} {s : ℚ}, (q, s) ∈ rankListQ L r →
      ∃ k, s = 1 / (60 + ((r + k : Nat) : ℚ) + 1) := by
  induction L with
  | nil => intro r q s h; simp [rankListQ] at h
  | cons hd tl ih =>
    intro r q s h
    obtain ⟨p, s'⟩ := hd
    simp only [rankListQ, List.mem_cons] at h
    rcases h with h | h
    · refine ⟨0, ?_⟩
      have := congrArg Prod.snd h
      simpa using this
    · obtain ⟨k, hk⟩ := ih h
      refine ⟨k + 1, ?_⟩
      rw [hk]
      push_cast
      ring_nf

/-- `rankListQ` is sorted by descending score. -/
theorem rankListQ_sorted (L : List (String × ℚ)) :
    ∀ r : Nat, List.Sorted scoreGE (rankListQ L r) := by
  induction L with
  | nil => intro r; simp [rankListQ]
  | cons hd tl ih =>
    intro r
    obtain ⟨p, s⟩ := hd
    simp only [rankListQ]
    refine List.sorted_cons.mpr ⟨?_, ih (r + 1)⟩
    rintro ⟨q, s'⟩ hmem
    obtain ⟨k, hk⟩ := rankListQ_mem hmem
    show s' ≤ 1 / (60 + (r : ℚ) + 1)
    rw [hk]
    apply one_div_le_one_div_of_le
    · positivity
    · push_cast
      linarith

/-- `rankListQ` preserves length. -/
theorem rankListQ_length (L : List (String × ℚ)) :
    ∀ r : Nat, (rankListQ L r).length = L.length := by
  induction L with
  | nil => intro r; rfl
  | cons hd tl ih =>
    intro r
    obtain ⟨p, s⟩ := hd
    simp [rankListQ, ih (r + 1)]

/-- C9: fusing a ranked list with pairwise distinct paths against the empty
list, under a limit at least its length, returns exactly its items in their
original order, each scored `1 / (60 + rank + 1)` for its 0-based rank. -/
theorem c9_rrf_empty_identity (L : List (String × ℚ)) (limit : Nat)
    (h₁ : (L.map Prod.fst).Nodup) (h₂ : L.length ≤ limit) :
    rrf_merge L [] limit = rankListQ L 0 := by
  unfold rrf_merge
  have h0 : accumRanks ([] : List (String × ℚ)) 0 (accumRanks L 0 []) =
      accumRanks L 0 [] := rfl
  rw [h0, accumRanks_disjoint L 0 [] h₁ (by simp)]
  rw [List.nil_append]
  unfold sortByScoreDesc
  show List.take limit (List.insertionSort scoreGE (rankListQ L 0)) = rankListQ L 0
  rw [(rankListQ_sorted L 0).insertionSort_eq]
  exact List.take_of_length_le (by rw [rankListQ_length]; exact h₂)

/-- C9 witness: fusing a two-element list with the empty list under limit 5
yields the two items in order with scores `1/61` and `1/62`. -/
theorem c9_rrf_empty_identity_witness :
    rrf_merge [("a", 10), ("b", 5)] [] 5 = rankListQ [("a", 10), ("b", 5)] 0 ∧
      rankListQ [("a", (10 : ℚ)), ("b", 5)] 0 = [("a", 1 / 61), ("b", 1 / 62)] :=
  ⟨c9_rrf_empty_identity [("a", 10), ("b", 5)] 5 (by decide) (by norm_num),
   by norm_num [rankListQ]⟩

/-- C5 counterexample: with `limit = 1`, BM25 ranking
`[a.md, b/src/x.rs]` and no semantic results, `search` returns `a.md`
(the top fused hit, boosted to `3/305`), yet the fused candidate
`b/src/x.rs` — visible in the untruncated fusion — has the strictly larger
boosted score `11/620`.  The returned set is therefore not the `limit`
highest-scoring candidates by boosted score over all fused candidates:
truncation to `limit` happens on unboosted fused scores, before boosting. -/
theorem c5_counterexample :
    searchHits [("a.md", 1), ("b/src/x.rs", 1)] [] 1 = [("a.md", 3 / 305)] ∧
      rrf_merge [("a.md", (1 : ℚ)), ("b/src/x.rs", 1)] [] 2 =
        [("a.md", 1 / 61), ("b/src/x.rs", 1 / 62)] ∧
      apply_boost "b/src/x.rs" (1 / 62) = 11 / 620 ∧
      apply_boost "a.md" (1 / 61) = 3 / 305 ∧
      (3 / 305 : ℚ) < 11 / 620 := by
  refine ⟨?_, ?_, ?_, ?_, by norm_num⟩
  · norm_num +decide [searchHits, rrf_merge, accumRanks, addScore, rrfConstK,
      sortByScoreDesc, List.insertionSort, List.orderedInsert, scoreGE, apply_boost]
  · norm_num +decide [rrf_merge, accumRanks, addScore, rrfConstK, sortByScoreDesc,
      List.insertionSort, List.orderedInsert, scoreGE]
  · norm_num +decide [apply_boost]
  · norm_num +decide [apply_boost]

/-- C5 (amended): `search` fetches `2·limit` results from each retriever,
fuses them with RRF and truncates to the top `limit` by fused (unboosted)
score, and only then boosts and re-sorts: the returned paths are exactly
(a permutation of) the top-`limit` candidates by fused score, every
returned score is the path boost applied to that hit's fused score, and
the output is sorted by descending boosted score. -/
theorem c5_search_pipeline (bm sem : List (String × ℚ)) (limit : Nat) :
    ((searchHits bm sem limit).map Prod.fst).Perm
        ((rrf_merge (bm.take (limit * 2)) (sem.take (limit * 2)) limit).map Prod.fst) ∧
      (∀ p s, (p, s) ∈ searchHits bm sem limit →
        ∃ s₀, (p, s₀) ∈ rrf_merge (bm.take (limit * 2)) (sem.take (limit * 2)) limit ∧
          s = apply_boost p s₀) ∧
      List.Sorted scoreGE (searchHits bm sem limit) := by
  have hdef : searchHits bm sem limit =
      List.insertionSort scoreGE
        ((rrf_merge (bm.take (limit * 2)) (sem.take (limit * 2)) limit).map
          (fun h => (h.1, apply_boost h.1 h.2))) := rfl
  refine ⟨?_, ?_, ?_⟩
  · rw [hdef]
    refine ((List.perm_insertionSort scoreGE _).map Prod.fst).trans ?_
    rw [List.map_map]
    exact List.Perm.refl _
  · intro p s hmem
    rw [hdef] at hmem
    have hmem' := (List.perm_insertionSort scoreGE _).mem_iff.mp hmem
    obtain ⟨⟨p₀, s₀⟩, hq, heq⟩ := List.mem_map.mp hmem'
    have hp : p₀ = p := congrArg Prod.fst heq
    have hs : s = apply_boost p₀ s₀ := (congrArg Prod.snd heq).symm
    subst hp
    exact ⟨s₀, hq, hs⟩
  · rw [hdef]
    exact List.sorted_insertionSort scoreGE _

/-- C5 witness: on the concrete ranking `[a.md, b/src/x.rs]` with
`limit = 1`, the returned hit `(a.md, 3/305)` is the boost of its fused
score within the truncated merge. -/
theorem c5_search_pipeline_witness :
    ("a.md", (3 / 305 : ℚ)) ∈ searchHits [("a.md", 1), ("b/src/x.rs", 1)] [] 1 ∧
      ∃ s₀, ("a.md", s₀) ∈
          rrf_merge ([("a.md", (1 : ℚ)), ("b/src/x.rs", 1)].take (1 * 2))
            (([] : List (String × ℚ)).take (1 * 2)) 1 ∧
        (3 / 305 : ℚ) = apply_boost "a.md" s₀ := by
  have hmem : ("a.md", (3 / 305 : ℚ)) ∈ searchHits [("a.md", 1), ("b/src/x.rs", 1)] [] 1 := by
    have : searchHits [("a.md", 1), ("b/src/x.rs", 1)] [] 1 = [("a.md", 3 / 305)] := by
      norm_num +decide [searchHits, rrf_merge, accumRanks, addScore, rrfConstK,
        sortByScoreDesc, List.insertionSort, List.orderedInsert, scoreGE, apply_boost]
    rw [this]
    exact List.mem_singleton.mpr rfl
  exact ⟨hmem,
    (c5_search_pipeline [("a.md", 1), ("b/src/x.rs", 1)] [] 1).2.1 "a.md" (3 / 305) hmem⟩

/-! ### Helper lemmas for the stream decoder -/

/-- Folding string concatenation from an arbitrary seed prepends the seed. -/
theorem foldl_strAppend (chunks : List String) :
    ∀ a : String, chunks.foldl (· ++ ·) a = a ++ chunks.foldl (· ++ ·) "" := by
  induction chunks with
  | nil => intro a; simp
  | cons c cs ih =>
    intro a
    show cs.foldl (· ++ ·) (a ++ c) = a ++ cs.foldl (· ++ ·) ("" ++ c)
    rw [ih (a ++ c), ih ("" ++ c)]
    simp [String.append_assoc]

/-- `String.join` of a cons splits off the head. -/
theorem strJoin_cons (c : String) (cs : List String) :
    String.join (c :: cs) = c ++ String.join cs := by
  show cs.foldl (· ++ ·) ("" ++ c) = c ++ cs.foldl (· ++ ·) ""
  rw [foldl_strAppend cs ("" ++ c)]
  simp

/-- While a tool-use block is current, a run of `input_json_delta` events
appends the concatenation of its chunks to the JSON accumulator and touches
nothing else. -/
theorem deltas_accumulate (parse : String → Option Json) (id name : String)
    (chunks : List String) :
    ∀ (st : StreamState) (acc : String),
      processEvents parse { st with current := some (BlockKind.toolUse id name acc) }
          (chunks.map StreamEvent.inputJsonDelta) =
        { st with current := some (BlockKind.toolUse id name (acc ++ String.join chunks)) } := by
  induction chunks with
  | nil =>
    intro st acc
    show { st with current := some (BlockKind.toolUse id name acc) } =
      { st with current := some (BlockKind.toolUse id name (acc ++ String.join [])) }
    simp [String.join]
  | cons c cs ih =>
    intro st acc
    show processEvents parse
        (processEvent parse { st with current := some (BlockKind.toolUse id name acc) }
          (StreamEvent.inputJsonDelta c))
        (cs.map StreamEvent.inputJsonDelta) = _
    have hstep : processEvent parse
        { st with current := some (BlockKind.toolUse id name acc) }
        (StreamEvent.inputJsonDelta c) =
        { st with current := some (BlockKind.toolUse id name (acc ++ c)) } := rfl
    rw [hstep, ih st (acc ++ c), strJoin_cons]
    simp [String.append_assoc]

/-- C7: starting a tool-use block, feeding any run of `input_json_delta`
chunks and stopping the block pushes exactly one ToolUse block whose input
is the parse of the chunk concatenation in arrival order (the empty JSON
object when parsing fails) — for every parse function, so the block is
independent of how the JSON text was split across deltas. -/
theorem c7_stream_tool_use (parse : String → Option Json) (id name : String)
    (chunks : List String) (st : StreamState) :
    processEvents parse st
        (StreamEvent.blockStartToolUse id name ::
          (chunks.map StreamEvent.inputJsonDelta ++ [StreamEvent.blockStop])) =
      { st with
        blocks := st.blocks ++
          [ContentBlock.toolUse id name ((parse (String.join chunks)).getD (Json.obj []))]
        current := none } := by
  show processEvents parse
      (processEvent parse st (StreamEvent.blockStartToolUse id name))
      (chunks.map StreamEvent.inputJsonDelta ++ [StreamEvent.blockStop]) = _
  have hstart : processEvent parse st (StreamEvent.blockStartToolUse id name) =
      { st with current := some (BlockKind.toolUse id name "") } := rfl
  rw [hstart]
  show List.foldl (processEvent parse)
      { st with current := some (BlockKind.toolUse id name "") }
      (chunks.map StreamEvent.inputJsonDelta ++ [StreamEvent.blockStop]) = _
  rw [List.foldl_append]
  rw [show List.foldl (processEvent parse)
        { st with current := some (BlockKind.toolUse id name "") }
        (chunks.map StreamEvent.inputJsonDelta) =
      processEvents parse { st with current := some (BlockKind.toolUse id name "") }
        (chunks.map StreamEvent.inputJsonDelta) from rfl]
  rw [deltas_accumulate parse id name chunks st ""]
  show StreamState.finish_block
      { st with current := some (BlockKind.toolUse id name ("" ++ String.join chunks)) }
      parse = _
  simp [StreamState.finish_block]

/-! ### Helper lemmas for tool-result truncation -/

/-- Slicing past a run of one-byte characters proceeds into the tail with
the byte budget reduced by the run length. -/
theorem takeBytes_replicate_one (n : Nat) :
    ∀ (rest : List Char) (m : Nat),
      takeBytes (List.replicate n 'a' ++ rest) (n + m) =
        (takeBytes rest m).map (fun t => List.replicate n 'a' ++ t) := by
  induction n with
  | zero =>
    intro rest m
    simp only [List.replicate, List.nil_append, Nat.zero_add]
    cases takeBytes rest m <;> simp
  | succ n ih =>
    intro rest m
    rw [show List.replicate (n + 1) 'a' ++ rest = 'a' :: (List.replicate n 'a' ++ rest) from by
          simp [List.replicate_succ]]
    rw [show n + 1 + m = (n + m) + 1 from by omega]
    rw [show takeBytes ('a' :: (List.replicate n 'a' ++ rest)) ((n + m) + 1) =
          if utf8CharSize 'a' ≤ (n + m) + 1 then
            (takeBytes (List.replicate n 'a' ++ rest) ((n + m) + 1 - utf8CharSize 'a')).map
              (fun t => 'a' :: t)
          else none from rfl]
    rw [if_pos (by rw [show utf8CharSize 'a' = 1 from by decide]; omega)]
    rw [show (n + m) + 1 - utf8CharSize 'a' = n + m from by
          rw [show utf8CharSize 'a' = 1 from by decide]; omega]
    rw [ih rest m]
    cases takeBytes rest m <;> simp [List.replicate_succ]

/-- C6 (code bug evidence): on a tool result whose content is 499 999
one-byte characters followed by a two-byte character, the content length
`500002` exceeds the 500 000-byte limit, and `truncate_tool_results`
panics (`none`): the byte slice `&content[..500000]` falls inside the
two-byte character.  The claim's totality is violated. -/
theorem c6_truncation_panics :
    utf8Len c6FailingContent = 500002 ∧
      truncate_tool_results
        [Message.mk "user" (Content.blocks
          [ContentBlock.toolResult "t1" c6FailingContent (some false)])] = none := by
  have hlen : utf8Len c6FailingContent = 500002 := by
    unfold utf8Len c6FailingContent
    rw [show (String.mk (List.replicate 499999 'a' ++ ['é', 'x'])).toList
          = List.replicate 499999 'a' ++ ['é', 'x'] from rfl]
    rw [List.map_append, List.sum_append, List.map_replicate]
    rw [show utf8CharSize 'a' = 1 from by decide]
    rw [List.sum_replicate]
    rw [show (['é', 'x'].map utf8CharSize).sum = 3 from by decide]
    simp
  have htake : takeBytes c6FailingContent.toList MAX_TOOL_RESULT_SIZE = none := by
    rw [show c6FailingContent.toList = List.replicate 499999 'a' ++ ['é', 'x'] from rfl]
    rw [show MAX_TOOL_RESULT_SIZE = 499999 + 1 from by norm_num [MAX_TOOL_RESULT_SIZE]]
    rw [takeBytes_replicate_one 499999 ['é', 'x'] 1]
    rw [show takeBytes ['é', 'x'] 1 = none from by decide]
    rfl
  have hblock : truncateBlock (ContentBlock.toolResult "t1" c6FailingContent (some false)) =
      none := by
    simp only [truncateBlock]
    rw [if_pos (by rw [hlen]; norm_num [MAX_TOOL_RESULT_SIZE]), htake]
  have hblocks : truncateBlocks [ContentBlock.toolResult "t1" c6FailingContent (some false)] =
      none := by
    show (truncateBlock (ContentBlock.toolResult "t1" c6FailingContent (some false))).bind _ =
      none
    rw [hblock]
    rfl
  have hct : truncateContent (Content.blocks
      [ContentBlock.toolResult "t1" c6FailingContent (some false)]) = none := by
    show (truncateBlocks [ContentBlock.toolResult "t1" c6FailingContent (some false)]).map
        Content.blocks = none
    rw [hblocks]
    rfl
  refine ⟨hlen, ?_⟩
  show (truncateContent (Content.blocks
      [ContentBlock.toolResult "t1" c6FailingContent (some false)])).bind _ = none
  rw [hct]
  rfl

/-! ### Helper lemmas for the agent loop -/

/-- Whenever the loop returns an error, the conversation it reports is the
current messages truncated to the rollback point. -/
theorem sendLoop_err_rollback (execTools : List ContentBlock → List ContentBlock)
    (script : Nat → IterStep) :
    ∀ (fuel i : Nat) (msgs : List Message) (rlen : Nat) (total : Usage) {e : String}
      {m : List Message},
      rlen ≤ msgs.length →
      sendLoop execTools script fuel i msgs rlen total = some (SendResult.err e m) →
      m = msgs.take rlen := by
  intro fuel
  induction fuel with
  | zero => intro i msgs rlen total e m _ h; exact absurd h (by simp [sendLoop])
  | succ fuel ih =>
    intro i msgs rlen total e m hle h
    rw [sendLoop] at h
    by_cases hc : (script i).cancelled
    · rw [if_pos hc] at h
      exact absurd h (by simp)
    · rw [if_neg hc] at h
      rcases hs : (script i).stream with e2 | sr
      · rw [hs] at h
        simp only [Option.some.injEq, SendResult.err.injEq] at h
        exact h.2.symm
      · rw [hs] at h
        simp only at h
        by_cases hstop : sr.stop_reason ≠ StopReason.toolUse
        · rw [if_pos hstop] at h
          exact absurd h (by simp)
        · rw [if_neg hstop] at h
          by_cases hempty : (execTools sr.content).isEmpty
          · rw [if_pos hempty] at h
            exact absurd h (by simp)
          · rw [if_neg hempty] at h
            have hlen2 : rlen ≤ (msgs ++ [Message.mk "assistant" (Content.blocks sr.content)] ++
                [Message.mk "user" (Content.blocks (execTools sr.content))]).length := by
              simp only [List.length_append, List.length_cons, List.length_nil]
              omega
            have := ih (i + 1) _ rlen (addUsage total sr.usage) hlen2 h
            rw [this, List.append_assoc, List.take_append_of_le_length hle]

/-- C2 counterexample: with the token already signaled at the first
top-of-loop check, `send_message` returns `Ok` (not a Cancelled error), and
the conversation keeps the freshly pushed user message — one more message
than the pre-turn count, not a rollback. -/
theorem c2_counterexample :
    send_message (fun _ => []) (fun _ => IterStep.mk true (Except.error "unused")) 1
        [Message.mk "user" (Content.text "old")] "hi" =
      some (SendResult.ok (Usage.mk 0 0)
        [Message.mk "user" (Content.text "old"), Message.mk "user" (Content.text "hi")]) ∧
      [Message.mk "user" (Content.text "old"),
        Message.mk "user" (Content.text "hi")].length ≠
        [Message.mk "user" (Content.text "old")].length := by
  exact ⟨rfl, by decide⟩

/-- C2 (amended): when the cancel token is observed signaled at the
top-of-loop check of any reached iteration, the loop simply breaks:
`send_message` returns `Ok` with the usage accumulated so far and the
conversation exactly as it stands — the turn is *not* rolled back and no
Cancelled error is produced.  (A Cancelled error with rollback arises only
when cancellation interrupts the streaming call itself, surfacing as a
`stream_message` error.) -/
theorem c2_cancel_breaks_ok (execTools : List ContentBlock → List ContentBlock)
    (script : Nat → IterStep) (fuel i : Nat) (msgs : List Message) (rlen : Nat)
    (total : Usage) (h : (script i).cancelled = true) :
    sendLoop execTools script (fuel + 1) i msgs rlen total =
      some (SendResult.ok total msgs) := by
  rw [sendLoop, if_pos h]

/-- C2 witness: a script whose token is signaled at iteration 0 makes the
loop return `Ok` with the messages untouched. -/
theorem c2_cancel_breaks_ok_witness :
    (((fun _ => IterStep.mk true (Except.error "x")) : Nat → IterStep) 0).cancelled = true ∧
      sendLoop (fun _ => []) (fun _ => IterStep.mk true (Except.error "x")) 1 0
          [Message.mk "user" (Content.text "old")] 1 (Usage.mk 0 0) =
        some (SendResult.ok (Usage.mk 0 0) [Message.mk "user" (Content.text "old")]) :=
  ⟨rfl, c2_cancel_breaks_ok (fun _ => []) (fun _ => IterStep.mk true (Except.error "x")) 0 0
    [Message.mk "user" (Content.text "old")] 1 (Usage.mk 0 0) rfl⟩

/-- C4: if the streaming call errors on any iteration, `send_message`
returns that error with the conversation truncated to the pre-turn message
list — the turn is atomic, leaving neither the user message nor any
assistant/tool-result messages from earlier iterations. -/
theorem c4_error_rollback (execTools : List ContentBlock → List ContentBlock)
    (script : Nat → IterStep) (fuel : Nat) (messages : List Message) (input : String)
    {e : String} {m : List Message}
    (h : send_message execTools script fuel messages input = some (SendResult.err e m)) :
    m = messages := by
  unfold send_message at h
  have := sendLoop_err_rollback execTools script fuel 0
    (messages ++ [Message.mk "user" (Content.text input)]) messages.length (Usage.mk 0 0)
    (by simp) h
  rw [this, List.take_left]

/-- C4 witness: a first-iteration stream error rolls the conversation back
to the single pre-turn message. -/
theorem c4_error_rollback_witness :
    send_message (fun _ => []) (fun _ => IterStep.mk false (Except.error "boom")) 1
        [Message.mk "user" (Content.text "old")] "hi" =
      some (SendResult.err "boom" [Message.mk "user" (Content.text "old")]) ∧
      [Message.mk "user" (Content.text "old")] = [Message.mk "user" (Content.text "old")] :=
  ⟨rfl, c4_error_rollback (fun _ => []) (fun _ => IterStep.mk false (Except.error "boom")) 1
    [Message.mk "user" (Content.text "old")] "hi" rfl⟩

/-! ### Helper lemmas for tool-call execution -/

/-- `resultIds` distributes over append. -/
theorem resultIds_append (a b : List ContentBlock) :
    resultIds (a ++ b) = resultIds a ++ resultIds b := by
  unfold resultIds
  exact List.filterMap_append a b _

/-- The phase-3 results carry exactly the prepared calls' ids, in order. -/
theorem exec_zip_ids (f : PreparedCall → ToolOutput) :
    ∀ prep : List PreparedCall,
      resultIds ((prep.zip (prep.map f)).map fun co =>
          ContentBlock.toolResult co.1.id co.2.content
            (if co.2.is_error then some true else none)) =
        prep.map PreparedCall.id := by
  intro prep
  induction prep with
  | nil => rfl
  | cons c cs ih =>
    show resultIds (ContentBlock.toolResult c.id (f c).content
        (if (f c).is_error then some true else none) ::
        (cs.zip (cs.map f)).map fun co =>
          ContentBlock.toolResult co.1.id co.2.content
            (if co.2.is_error then some true else none)) = c.id :: cs.map PreparedCall.id
    rw [show ∀ (x : String) (y : String) (z : Option Bool) (l : List ContentBlock),
          resultIds (ContentBlock.toolResult x y z :: l) = x :: resultIds l from
        fun x y z l => rfl]
    rw [ih]

/-- Phase 1 splits the ToolUse ids into the immediate-result ids and the
prepared-call ids: each part keeps the emission order, and together they are
a permutation of all ToolUse ids. -/
theorem phase1_ids {σ : Type} (allow : σ → String → Json → Bool × σ)
    (registry : String → Option (Json → ToolOutput)) :
    ∀ (content : List ContentBlock) (s : σ),
      List.Sublist (resultIds (phase1 allow registry content s).1) (toolUseIds content) ∧
      List.Sublist ((phase1 allow registry content s).2.1.map PreparedCall.id)
        (toolUseIds content) ∧
      List.Perm (resultIds (phase1 allow registry content s).1 ++
          (phase1 allow registry content s).2.1.map PreparedCall.id)
        (toolUseIds content) := by
  intro content
  induction content with
  | nil =>
    intro s
    refine ⟨List.Sublist.refl _, List.Sublist.refl _, ?_⟩
    exact List.Perm.refl _
  | cons b rest ih =>
    intro s
    cases b with
    | text t => exact ih s
    | toolResult x y z => exact ih s
    | toolUse id name input =>
      have h2 : toolUseIds (ContentBlock.toolUse id name input :: rest) =
          id :: toolUseIds rest := rfl
      rw [h2]
      obtain ⟨s1, s2, s3⟩ := ih (allow s name input).2
      by_cases hallow : (allow s name input).1 = true
      · rcases hreg : registry name with _ | ex
        · have h1 : phase1 allow registry (ContentBlock.toolUse id name input :: rest) s =
              (ContentBlock.toolResult id ("Unknown tool: " ++ name) (some true) ::
                  (phase1 allow registry rest (allow s name input).2).1,
                (phase1 allow registry rest (allow s name input).2).2.1,
                (phase1 allow registry rest (allow s name input).2).2.2) := by
            simp only [phase1, hallow, if_true, hreg]
          rw [h1]
          refine ⟨?_, ?_, ?_⟩
          · exact List.Sublist.cons₂ id s1
          · exact List.Sublist.cons id s2
          · exact (List.Perm.cons id s3)
        · have h1 : phase1 allow registry (ContentBlock.toolUse id name input :: rest) s =
              ((phase1 allow registry rest (allow s name input).2).1,
                PreparedCall.mk id name input ex ::
                  (phase1 allow registry rest (allow s name input).2).2.1,
                (phase1 allow registry rest (allow s name input).2).2.2) := by
            simp only [phase1, hallow, if_true, hreg]
          rw [h1]
          refine ⟨List.Sublist.cons id s1, ?_, ?_⟩
          · exact List.Sublist.cons₂ id s2
          · show List.Perm (resultIds (phase1 allow registry rest (allow s name input).2).1 ++
              (id :: (phase1 allow registry rest (allow s name input).2).2.1.map
                PreparedCall.id)) (id :: toolUseIds rest)
            exact List.perm_middle.trans (List.Perm.cons id s3)
      · have h1 : phase1 allow registry (ContentBlock.toolUse id name input :: rest) s =
            (ContentBlock.toolResult id "Permission denied by user." (some true) ::
                (phase1 allow registry rest (allow s name input).2).1,
              (phase1 allow registry rest (allow s name input).2).2.1,
              (phase1 allow registry rest (allow s name input).2).2.2) := by
          simp only [phase1, hallow, if_false]
          rw [if_neg (by simp [hallow])]
        rw [h1]
        exact ⟨List.Sublist.cons₂ id s1, List.Sublist.cons id s2, List.Perm.cons id s3⟩

/-- C1 counterexample: two ToolUse calls, the first allowed and known, the
second denied — the returned ToolResult list carries the ids in order
`["2", "1"]` while the ToolUse blocks were emitted as `["1", "2"]`:
immediate (denied/unknown) results precede executed results, so the claimed
emission-order property fails. -/
theorem c1_counterexample :
    resultIds (execute_tool_calls
        (fun (s : Unit) name _ => (decide (name = "A"), s))
        (fun name => if name = "A" then some (fun _ => ToolOutput.mk "ok" false) else none)
        [ContentBlock.toolUse "1" "A" (Json.obj []), ContentBlock.toolUse "2" "B" (Json.obj [])]
        ()).1 = ["2", "1"] ∧
      toolUseIds [ContentBlock.toolUse "1" "A" (Json.obj []),
        ContentBlock.toolUse "2" "B" (Json.obj [])] = ["1", "2"] ∧
      (["2", "1"] : List String) ≠ ["1", "2"] :=
  ⟨rfl, rfl, by decide⟩

/-- C1 (amended): `execute_tool_calls` returns exactly one ToolResult per
ToolUse block (non-ToolUse blocks contribute none): the result ids are the
immediate (permission-denied or unknown-tool) ids followed by the executed
ids; each of the two groups preserves the model's emission order, and
together they are a permutation of the ToolUse ids.  The results are *not*
in emission order whenever a denied or unknown call follows an executed
one. -/
theorem c1_one_result_per_tool_use {σ : Type} (allow : σ → String → Json → Bool × σ)
    (registry : String → Option (Json → ToolOutput))
    (content : List ContentBlock) (s : σ) :
    resultIds (execute_tool_calls allow registry content s).1 =
      resultIds (phase1 allow registry content s).1 ++
        (phase1 allow registry content s).2.1.map PreparedCall.id ∧
      List.Sublist (resultIds (phase1 allow registry content s).1) (toolUseIds content) ∧
      List.Sublist ((phase1 allow registry content s).2.1.map PreparedCall.id)
        (toolUseIds content) ∧
      List.Perm (resultIds (execute_tool_calls allow registry content s).1)
        (toolUseIds content) := by
  have hids : resultIds (execute_tool_calls allow registry content s).1 =
      resultIds (phase1 allow registry content s).1 ++
        (phase1 allow registry content s).2.1.map PreparedCall.id := by
    show resultIds ((phase1 allow registry content s).1 ++
        ((phase1 allow registry content s).2.1.zip
          ((phase1 allow registry content s).2.1.map fun call => call.exec call.input)).map
          fun co => ContentBlock.toolResult co.1.id co.2.content
            (if co.2.is_error then some true else none)) = _
    rw [resultIds_append, exec_zip_ids]
  obtain ⟨s1, s2, s3⟩ := phase1_ids allow registry content s
  exact ⟨hids, s1, s2, hids ▸ s3⟩

end ClaudeCodeRs
